import Mathlib

set_option maxRecDepth 4000

/-! Verification of the incremental segmentation engine
`CompletionManager.process_text_stream` of `completion_manager.py`.

Python strings are modelled as lists of characters (`Str`); Python whitespace
(`str.strip`, regex `\s`) is modelled by its ASCII part, which covers every
character class the engine distinguishes.  Callback invocations are modelled as
an ordered trace of events instead of side effects, and the `while buffer:`
loop is modelled with explicit fuel, shown below (`consume_loop_stable`) to
reach the loop exit within `2 * buffer.length + 2` passes. -/

/-- Python strings, modelled as lists of characters. -/
abbrev Str := List Char

/-- ASCII part of Python whitespace, as used by `str.strip()` and by the
regex class `\s` in `sentence_pattern`. -/
def pySpace (c : Char) : Bool :=
  c = ' ' || c = '\t' || c = '\n' || c = '\r' || c = '\x0b' || c = '\x0c'

/-- The sentence-terminator class `[.!?]` of `sentence_pattern`. -/
def isTerm (c : Char) : Bool :=
  c = '.' || c = '!' || c = '?'

/-- Python `s.strip()`: remove leading and trailing whitespace. -/
def pyStrip (s : Str) : Str :=
  ((s.dropWhile pySpace).reverse.dropWhile pySpace).reverse

/-- Index of the first occurrence of `pat` in `s`: the search underlying the
Python operations `pat in s` and `s.partition(pat)`. -/
def firstOcc (pat : Str) : Str → Option Nat
  | [] => if pat.isPrefixOf ([] : Str) then some 0 else none
  | c :: rest =>
    if pat.isPrefixOf (c :: rest) then some 0
    else (firstOcc pat rest).map (· + 1)

/-- Python `sub in s`. -/
def strContains (sub s : Str) : Bool :=
  (firstOcc sub s).isSome

/-- Python `s.partition(sep)`: split at the first occurrence of `sep`, or
`(s, "", "")` when `sep` does not occur in `s`. -/
def pyPartition (s sep : Str) : Str × Str × Str :=
  match firstOcc sep s with
  | some i => (s.take i, sep, s.drop (i + sep.length))
  | none => (s, [], [])

/-- One `(start_marker, end_marker, callback_function)` tuple of
`marker_tuples`.  `stop` models the Python `end` marker (`end` is a Lean
keyword); the callback is modelled by an identifier, `none` standing for a
falsy callback. -/
structure MarkerSpec where
  start : Str
  stop : Str
  callback : Option Nat
  deriving DecidableEq, Repr

/-- One callback invocation: `marker id text` records a call of the marker
callback named `id` with argument `text`; `sentence text` records a call of
`sentence_callback` with argument `text`. -/
inductive Event where
  | marker (id : Nat) (text : Str)
  | sentence (text : Str)
  deriving DecidableEq, Repr

/-- The mutable state of one `process_text_stream` run: the working `buffer`,
the `active_markers` list, and the ordered trace of callback invocations made
so far. -/
structure EngineState where
  buffer : Str
  active : List MarkerSpec
  events : List Event
  deriving DecidableEq, Repr

/-- Call-time configuration of `process_text_stream`: whether a truthy
`sentence_callback` was supplied, and the `marker_tuples` list (the empty list
models both `None` and `[]`, which Python's `if marker_tuples:` treats alike). -/
structure Config where
  hasSentenceCb : Bool
  markerTuples : List MarkerSpec
  deriving DecidableEq, Repr

/-- Length of the `group(1)` text matched at the start of `s` by the first
alternative `.*?[.!?](?:\s|$)` of `sentence_pattern` (compiled with
`re.DOTALL`, so `.` also matches newlines): the lazy `.*?` selects the least
position holding a terminator that is followed by a whitespace character
(which the group then includes) or by the end of the string.  Returns `none`
when this alternative cannot match. -/
def alt1Len : Str → Option Nat
  | [] => none
  | [c] => if isTerm c then some 1 else none
  | c :: d :: rest =>
    if isTerm c && pySpace d then some 2
    else (alt1Len (d :: rest)).map (· + 1)

/-- `sentence_pattern.match(buffer)`, returning `match.group(1)`: the first
alternative with its lazy-shortest match; otherwise the literal `\n`
alternative, which can only match a newline standing at the start of the
buffer; otherwise no match. -/
def sentence_pattern_match (buffer : Str) : Option Str :=
  match alt1Len buffer with
  | some n => some (buffer.take n)
  | none =>
    match buffer with
    | '\n' :: _ => some ['\n']
    | _ => none

/-- The `for i, (start, end, callback) in enumerate(active_markers)` loop of
`process_active_markers`, with `i` the enumeration index of the first marker
examined: returns the index of the marker that closed, the new buffer
(`rest` of the partition at the end marker), and the callback events fired,
or `none` for the Python return value `-1`.  A marker whose end marker occurs
but whose enclosed text is whitespace-only is skipped (the Python
`buffer = rest; return i` sit inside `if marked_text.strip():`). -/
def process_active_markers_go (buffer : Str) : List MarkerSpec → Nat → Option (Nat × Str × List Event)
  | [], _ => none
  | m :: rest, i =>
    if strContains m.stop buffer then
      if !(pyStrip (pyPartition buffer m.stop).1).isEmpty then
        some (i, (pyPartition buffer m.stop).2.2,
          match m.callback with
          | some id => [Event.marker id (pyPartition buffer m.stop).1]
          | none => [])
      else process_active_markers_go buffer rest (i + 1)
    else process_active_markers_go buffer rest (i + 1)

/-- `process_active_markers`: scan `active_markers` in order for one whose end
marker occurs in the buffer with non-whitespace enclosed text. -/
def process_active_markers (buffer : Str) (active : List MarkerSpec) :
    Option (Nat × Str × List Event) :=
  process_active_markers_go buffer active 0

/-- The `for start, end, callback in marker_tuples` loop of
`process_new_markers_or_sentences`: the first tuple in list order whose start
marker occurs anywhere in the buffer, together with the buffer part after the
first occurrence of that start marker (`_, _, buffer = buffer.partition(start)`). -/
def scan_marker_tuples (buffer : Str) : List MarkerSpec → Option (MarkerSpec × Str)
  | [] => none
  | m :: rest =>
    if strContains m.start buffer then some (m, (pyPartition buffer m.start).2.2)
    else scan_marker_tuples buffer rest

/-- `process_new_markers_or_sentences`: open the first marker tuple whose start
marker occurs in the buffer (appending it to `active_markers`), else emit one
sentence match; `none` models the Python return value `False`. -/
def process_new_markers_or_sentences (cfg : Config) (s : EngineState) : Option EngineState :=
  match scan_marker_tuples s.buffer cfg.markerTuples with
  | some (m, after) =>
    some { s with buffer := after, active := s.active ++ [m] }
  | none =>
    match sentence_pattern_match s.buffer with
    | some sentence =>
      some { s with
        buffer := s.buffer.drop sentence.length,
        events := s.events ++
          (if cfg.hasSentenceCb && !(pyStrip sentence).isEmpty then
            [Event.sentence (pyStrip sentence)]
          else []) }
    | none => none

/-- One pass of the body of the `while buffer:` loop in `process_text_stream`:
drain the active markers when there are any (removing the closed marker at its
returned index), else try to open a marker or extract a sentence.  `none`
models reaching `break`. -/
def step (cfg : Config) (s : EngineState) : Option EngineState :=
  match s.active with
  | [] => process_new_markers_or_sentences cfg s
  | _ :: _ =>
    match process_active_markers s.buffer s.active with
    | some (i, newBuf, evs) =>
      some { s with buffer := newBuf, active := s.active.eraseIdx i, events := s.events ++ evs }
    | none => none

/-- The `while buffer:` loop of `process_text_stream`, with explicit fuel. -/
def consumeLoop (cfg : Config) : Nat → EngineState → EngineState
  | 0, s => s
  | fuel + 1, s =>
    if s.buffer.isEmpty then s
    else
      match step cfg s with
      | some s' => consumeLoop cfg fuel s'
      | none => s

/-- Run the `while buffer:` loop to completion on the current buffer: the fuel
`2 * buffer.length + 2` always reaches the loop exit (`consume_loop_stable`). -/
def runBuffer (cfg : Config) (s : EngineState) : EngineState :=
  consumeLoop cfg (2 * s.buffer.length + 2) s

/-- The iterations of the final `while buffer:` flush loop once the buffer is
known to be non-empty: each pass with active markers left pops the oldest one
without invoking its callback (the buffer, unchanged, stays non-empty); the
pass with no active marker left hands the leftover buffer text, stripped, to
the sentence callback when both are truthy, and breaks. -/
def flushGo (hasCb : Bool) (buffer : Str) (events : List Event) :
    List MarkerSpec → EngineState
  | _ :: rest => flushGo hasCb buffer events rest
  | [] =>
    if hasCb && !(pyStrip buffer).isEmpty then
      ⟨buffer, [], events ++ [Event.sentence (pyStrip buffer)]⟩
    else ⟨buffer, [], events⟩

/-- The final `while buffer:` flush loop of `process_text_stream`: it runs no
pass at all when the buffer is empty. -/
def flushLoop (hasCb : Bool) (s : EngineState) : EngineState :=
  if s.buffer.isEmpty then s
  else flushGo hasCb s.buffer s.events s.active

/-- One `for chunk in text_stream` iteration of `process_text_stream`: extend
`full_text` and `buffer` by the chunk, then run the `while buffer:` loop. -/
def feedChunk (cfg : Config) (p : EngineState × Str) (chunk : Str) : EngineState × Str :=
  (runBuffer cfg { p.1 with buffer := p.1.buffer ++ chunk }, p.2 ++ chunk)

/-- `CompletionManager.process_text_stream`: consume the whole fragment stream,
flush, and return the unmodified `full_text` together with the ordered trace of
callback invocations. -/
def process_text_stream (text_stream : List Str) (hasSentenceCb : Bool)
    (marker_tuples : List MarkerSpec) : Str × List Event :=
  let cfg : Config := ⟨hasSentenceCb, marker_tuples⟩
  let p := text_stream.foldl (feedChunk cfg) (⟨[], [], []⟩, [])
  (p.2, (flushLoop hasSentenceCb p.1).events)

/-- Alternative (a) of the sentence-splitter pattern, read off the claim's own
words rather than the code, as a predicate on prefix lengths: the prefix of
`buffer` of length `n` is a run of characters up to and including a `.`, `!`
or `?` that is followed by a whitespace character (then included in the run,
as in the regex group) or by the end of the buffer. -/
def specA (buffer : Str) (n : Nat) : Prop :=
  1 ≤ n ∧ n ≤ buffer.length ∧
    ((isTerm (buffer.getD (n - 1) 'x') = true ∧ n = buffer.length) ∨
     (2 ≤ n ∧ isTerm (buffer.getD (n - 2) 'x') = true ∧
       pySpace (buffer.getD (n - 1) 'x') = true))

instance specA_decidable (buffer : Str) (n : Nat) : Decidable (specA buffer n) := by
  unfold specA
  infer_instance

/-- The states an engine run can pass through during one call of
`process_text_stream`: the initial state, buffer extension on chunk arrival,
one pass of the `while buffer:` loop, and the two actions of the final flush
loop (popping an active marker; emitting the leftover text). -/
inductive ReachableState (cfg : Config) : EngineState → Prop
  | init : ReachableState cfg ⟨[], [], []⟩
  | chunk (s : EngineState) (c : Str) :
      ReachableState cfg s → ReachableState cfg { s with buffer := s.buffer ++ c }
  | loopStep (s s' : EngineState) :
      ReachableState cfg s → ¬ s.buffer.isEmpty → step cfg s = some s' →
      ReachableState cfg s'
  | flushPop (s : EngineState) (m : MarkerSpec) (rest : List MarkerSpec) :
      ReachableState cfg s → ¬ s.buffer.isEmpty → s.active = m :: rest →
      ReachableState cfg { s with active := rest }
  | flushEmit (s : EngineState) :
      ReachableState cfg s → ¬ s.buffer.isEmpty → s.active = [] →
      ReachableState cfg { s with events := s.events ++ [Event.sentence (pyStrip s.buffer)] }

/-- Loop measure for the `while buffer:` loop: every pass that makes progress
strictly decreases it (`step_mSize`), so the loop exits within
`2 * buffer.length + 2` passes. -/
def mSize (s : EngineState) : Nat :=
  2 * s.buffer.length + (if s.active = [] then 1 else 0)

/-- Every sentence-callback invocation recorded in the trace received a
whitespace-trimmed, non-empty string. -/
def goodEvents (evs : List Event) : Prop :=
  ∀ t, Event.sentence t ∈ evs → pyStrip t = t ∧ t ≠ []

theorem pyStrip_head_not (s : Str) (c : Char) (t : Str)
    (h : s.dropWhile pySpace = c :: t) : pySpace c = false := by
  induction s with
  | nil => simp at h
  | cons a as ih =>
    by_cases ha : pySpace a
    · rw [List.dropWhile_cons_of_pos ha] at h
      exact ih h
    · rw [List.dropWhile_cons_of_neg ha] at h
      cases h
      simpa using ha

theorem pyStrip_idem (s : Str) : pyStrip (pyStrip s) = pyStrip s := by
  have key : (pyStrip s).dropWhile pySpace = pyStrip s := by
    cases hR : pyStrip s with
    | nil => simp
    | cons c t =>
      have hsuf : (s.dropWhile pySpace).reverse.dropWhile pySpace <:+
          (s.dropWhile pySpace).reverse := List.dropWhile_suffix pySpace
      have hpre : pyStrip s <+: s.dropWhile pySpace := by
        have h2 := Iff.mpr List.reverse_prefix hsuf
        rwa [List.reverse_reverse] at h2
      rw [hR] at hpre
      obtain ⟨u, hu⟩ := hpre
      have hc : pySpace c = false := pyStrip_head_not s c (t ++ u) hu.symm
      exact List.dropWhile_cons_of_neg (by simp [hc])
  have key2 : (pyStrip s).reverse.dropWhile pySpace = (pyStrip s).reverse := by
    unfold pyStrip
    rw [List.reverse_reverse]
    exact List.dropWhile_idempotent pySpace _
  calc pyStrip (pyStrip s)
      = (((pyStrip s).dropWhile pySpace).reverse.dropWhile pySpace).reverse := rfl
    _ = ((pyStrip s).reverse.dropWhile pySpace).reverse := by rw [key]
    _ = ((pyStrip s).reverse).reverse := by rw [key2]
    _ = pyStrip s := List.reverse_reverse _

theorem pyStrip_ne_nil_of (s : Str) (h : pyStrip s ≠ []) : s ≠ [] := by
  intro hs
  exact h (by rw [hs]; rfl)

theorem alt1Len_bounds : ∀ (s : Str) (n : Nat), alt1Len s = some n → 1 ≤ n ∧ n ≤ s.length
  | [], n, h => by simp [alt1Len] at h
  | [c], n, h => by
    by_cases hc : isTerm c
    · simp [alt1Len, hc] at h
      simp [List.length_singleton]
      omega
    · simp [alt1Len, hc] at h
  | c :: d :: rest, n, h => by
    by_cases hcd : isTerm c && pySpace d
    · simp [alt1Len, hcd] at h
      simp [List.length_cons]
      omega
    · simp only [alt1Len, hcd, Bool.false_eq_true, if_false, Option.map_eq_some'] at h
      obtain ⟨m, hm, rfl⟩ := h
      have hb := alt1Len_bounds (d :: rest) m hm
      simp [List.length_cons] at hb ⊢
      omega

theorem pyPartition_rest_le (s sep : Str) : (pyPartition s sep).2.2.length ≤ s.length := by
  unfold pyPartition
  cases h : firstOcc sep s with
  | none => simp
  | some i =>
    simp [List.length_drop]

theorem pyPartition_rest_lt (s sep : Str)
    (h : pyStrip (pyPartition s sep).1 ≠ []) :
    (pyPartition s sep).2.2.length < s.length := by
  have hne : (pyPartition s sep).1 ≠ [] := pyStrip_ne_nil_of _ h
  unfold pyPartition at hne ⊢
  cases hf : firstOcc sep s with
  | none =>
    rw [hf] at hne
    simp only at hne ⊢
    simp only [List.length_nil]
    have : s ≠ [] := hne
    cases s with
    | nil => exact absurd rfl this
    | cons a l => simp
  | some i =>
    rw [hf] at hne
    simp only at hne ⊢
    have htake : (s.take i).length ≠ 0 := by
      intro hlen
      exact hne (List.eq_nil_of_length_eq_zero hlen)
    rw [List.length_take] at htake
    rw [List.length_drop]
    omega

theorem process_active_markers_go_some (buffer : Str) :
    ∀ (ms : List MarkerSpec) (i j : Nat) (nb : Str) (evs : List Event),
    process_active_markers_go buffer ms i = some (j, nb, evs) →
    ∃ m, m ∈ ms ∧ strContains m.stop buffer = true ∧
      pyStrip (pyPartition buffer m.stop).1 ≠ [] ∧
      nb = (pyPartition buffer m.stop).2.2
  | [], i, j, nb, evs, h => by simp [process_active_markers_go] at h
  | m :: rest, i, j, nb, evs, h => by
    by_cases hc : strContains m.stop buffer
    · by_cases hs : (pyStrip (pyPartition buffer m.stop).1).isEmpty
      · rw [process_active_markers_go, if_pos hc, if_neg (by simp [hs])] at h
        obtain ⟨m', hmem, hrest⟩ := process_active_markers_go_some buffer rest (i + 1) j nb evs h
        exact ⟨m', List.mem_cons_of_mem m hmem, hrest⟩
      · rw [process_active_markers_go, if_pos hc, if_pos (by simp [hs])] at h
        refine ⟨m, List.mem_cons_self m rest, hc, ?_, ?_⟩
        · simpa using hs
        · cases h
          rfl
    · rw [process_active_markers_go, if_neg hc] at h
      obtain ⟨m', hmem, hrest⟩ := process_active_markers_go_some buffer rest (i + 1) j nb evs h
      exact ⟨m', List.mem_cons_of_mem m hmem, hrest⟩

theorem scan_marker_tuples_some (buffer : Str) :
    ∀ (ms : List MarkerSpec) (m : MarkerSpec) (after : Str),
    scan_marker_tuples buffer ms = some (m, after) →
    m ∈ ms ∧ strContains m.start buffer = true ∧
      after = (pyPartition buffer m.start).2.2
  | [], m, after, h => by simp [scan_marker_tuples] at h
  | m' :: rest, m, after, h => by
    by_cases hc : strContains m'.start buffer
    · rw [scan_marker_tuples, if_pos hc] at h
      cases h
      exact ⟨List.mem_cons_self m' rest, hc, rfl⟩
    · rw [scan_marker_tuples, if_neg hc] at h
      obtain ⟨hmem, hrest⟩ := scan_marker_tuples_some buffer rest m after h
      exact ⟨List.mem_cons_of_mem m' hmem, hrest⟩

theorem sentence_pattern_match_length (buffer : Str) (sentence : Str)
    (h : sentence_pattern_match buffer = some sentence) :
    1 ≤ sentence.length ∧ sentence.length ≤ buffer.length := by
  unfold sentence_pattern_match at h
  cases ha : alt1Len buffer with
  | some n =>
    rw [ha] at h
    cases h
    have hb := alt1Len_bounds buffer n ha
    rw [List.length_take]
    omega
  | none =>
    rw [ha] at h
    cases buffer with
    | nil => simp at h
    | cons c rest =>
      by_cases hc : c = '\n'
      · subst hc
        simp at h
        subst h
        simp [List.length_cons]
      · exfalso
        cases c
        simp_all

theorem step_mSize (cfg : Config) (s s' : EngineState)
    (hbuf : s.buffer ≠ []) (h : step cfg s = some s') : mSize s' < mSize s := by
  obtain ⟨buf, act, evs⟩ := s
  dsimp only at hbuf
  cases act with
  | nil =>
    dsimp only [step] at h
    unfold process_new_markers_or_sentences at h
    cases hscan : scan_marker_tuples buf cfg.markerTuples with
    | some pair =>
      obtain ⟨m, after⟩ := pair
      rw [hscan] at h
      dsimp only at h
      cases h
      obtain ⟨_, _, hafter⟩ := scan_marker_tuples_some buf cfg.markerTuples m after hscan
      have hle : after.length ≤ buf.length := by
        rw [hafter]
        exact pyPartition_rest_le _ _
      simp [mSize]
      omega
    | none =>
      rw [hscan] at h
      cases hsent : sentence_pattern_match buf with
      | some sentence =>
        rw [hsent] at h
        dsimp only at h
        cases h
        have hlen := sentence_pattern_match_length buf sentence hsent
        have hbl : 1 ≤ buf.length := by
          cases buf with
          | nil => exact absurd rfl hbuf
          | cons a l => simp [List.length_cons]
        simp [mSize, List.length_drop]
        omega
      | none =>
        rw [hsent] at h
        simp at h
  | cons m rest =>
    dsimp only [step] at h
    cases hpam : process_active_markers buf (m :: rest) with
    | some trip =>
      obtain ⟨i, nb, evs2⟩ := trip
      rw [hpam] at h
      dsimp only at h
      cases h
      obtain ⟨m', _, _, hstrip, hnb⟩ :=
        process_active_markers_go_some buf (m :: rest) 0 i nb evs2 hpam
      have hlt : nb.length < buf.length := by
        rw [hnb]
        exact pyPartition_rest_lt _ _ hstrip
      simp only [mSize]
      split <;> simp <;> omega
    | none =>
      rw [hpam] at h
      simp at h

theorem consume_loop_stable (cfg : Config) :
    ∀ (fuel1 fuel2 : Nat) (s : EngineState), mSize s < fuel1 → mSize s < fuel2 →
    consumeLoop cfg fuel1 s = consumeLoop cfg fuel2 s
  | 0, _, s, h1, _ => absurd h1 (by omega)
  | _ + 1, 0, s, _, h2 => absurd h2 (by omega)
  | f + 1, g + 1, s, h1, h2 => by
    by_cases hb : s.buffer.isEmpty
    · simp [consumeLoop, hb]
    · cases hs : step cfg s with
      | none => simp [consumeLoop, hb, hs]
      | some s' =>
        have hbne : s.buffer ≠ [] := fun e => hb (by simp [e])
        have hd := step_mSize cfg s s' hbne hs
        simp only [consumeLoop, hb, Bool.false_eq_true, if_false, hs]
        exact consume_loop_stable cfg f g s' (by omega) (by omega)

theorem goodEvents_nil : goodEvents [] := by
  intro t ht
  simp at ht

theorem goodEvents_append (e1 e2 : List Event) (h1 : goodEvents e1) (h2 : goodEvents e2) :
    goodEvents (e1 ++ e2) := by
  intro t ht
  rcases List.mem_append.mp ht with h | h
  · exact h1 t h
  · exact h2 t h

theorem process_active_markers_go_events (buffer : Str) :
    ∀ (ms : List MarkerSpec) (i j : Nat) (nb : Str) (evs : List Event),
    process_active_markers_go buffer ms i = some (j, nb, evs) →
    ∀ t, Event.sentence t ∉ evs
  | [], i, j, nb, evs, h => by simp [process_active_markers_go] at h
  | m :: rest, i, j, nb, evs, h => by
    by_cases hc : strContains m.stop buffer
    · by_cases hs : (pyStrip (pyPartition buffer m.stop).1).isEmpty
      · rw [process_active_markers_go, if_pos hc, if_neg (by simp [hs])] at h
        exact process_active_markers_go_events buffer rest (i + 1) j nb evs h
      · rw [process_active_markers_go, if_pos hc, if_pos (by simp [hs])] at h
        cases h
        intro t ht
        cases hcb : m.callback with
        | some id => rw [hcb] at ht; simp at ht
        | none => rw [hcb] at ht; simp at ht
    · rw [process_active_markers_go, if_neg hc] at h
      exact process_active_markers_go_events buffer rest (i + 1) j nb evs h

theorem step_goodEvents (cfg : Config) (s s' : EngineState)
    (h : step cfg s = some s') (hg : goodEvents s.events) : goodEvents s'.events := by
  obtain ⟨buf, act, evs⟩ := s
  dsimp only at hg
  cases act with
  | nil =>
    dsimp only [step] at h
    unfold process_new_markers_or_sentences at h
    cases hscan : scan_marker_tuples buf cfg.markerTuples with
    | some pair =>
      obtain ⟨m, after⟩ := pair
      rw [hscan] at h
      dsimp only at h
      cases h
      exact hg
    | none =>
      rw [hscan] at h
      cases hsent : sentence_pattern_match buf with
      | some sentence =>
        rw [hsent] at h
        dsimp only at h
        cases h
        apply goodEvents_append _ _ hg
        by_cases hcb : (cfg.hasSentenceCb && !(pyStrip sentence).isEmpty) = true
        · rw [if_pos hcb]
          intro t ht
          simp at ht
          subst ht
          refine ⟨pyStrip_idem sentence, ?_⟩
          intro hnil
          rw [hnil] at hcb
          simp at hcb
        · rw [if_neg hcb]
          exact goodEvents_nil
      | none =>
        rw [hsent] at h
        simp at h
  | cons m rest =>
    dsimp only [step] at h
    cases hpam : process_active_markers buf (m :: rest) with
    | some trip =>
      obtain ⟨i, nb, evs2⟩ := trip
      rw [hpam] at h
      dsimp only at h
      cases h
      apply goodEvents_append _ _ hg
      intro t ht
      exact absurd ht (process_active_markers_go_events buf (m :: rest) 0 i nb evs2 hpam t)
    | none =>
      rw [hpam] at h
      simp at h

theorem consumeLoop_goodEvents (cfg : Config) :
    ∀ (fuel : Nat) (s : EngineState), goodEvents s.events →
    goodEvents (consumeLoop cfg fuel s).events
  | 0, s, hg => hg
  | f + 1, s, hg => by
    by_cases hb : s.buffer.isEmpty
    · simpa [consumeLoop, hb] using hg
    · cases hs : step cfg s with
      | none => simpa [consumeLoop, hb, hs] using hg
      | some s' =>
        simp only [consumeLoop, hb, Bool.false_eq_true, if_false, hs]
        exact consumeLoop_goodEvents cfg f s' (step_goodEvents cfg s s' hs hg)

theorem foldl_goodEvents (cfg : Config) :
    ∀ (chunks : List Str) (p : EngineState × Str), goodEvents p.1.events →
    goodEvents ((chunks.foldl (feedChunk cfg) p).1.events)
  | [], p, hg => hg
  | c :: cs, p, hg => by
    rw [List.foldl_cons]
    apply foldl_goodEvents cfg cs
    exact consumeLoop_goodEvents cfg _ _ hg

theorem flushGo_goodEvents (hasCb : Bool) (buffer : Str) (events : List Event) :
    ∀ (active : List MarkerSpec), goodEvents events →
    goodEvents (flushGo hasCb buffer events active).events
  | _ :: rest, hg => flushGo_goodEvents hasCb buffer events rest hg
  | [], hg => by
    unfold flushGo
    by_cases hc : (hasCb && !(pyStrip buffer).isEmpty) = true
    · rw [if_pos hc]
      dsimp only
      apply goodEvents_append _ _ hg
      intro t ht
      simp at ht
      subst ht
      refine ⟨pyStrip_idem buffer, ?_⟩
      intro hnil
      rw [hnil] at hc
      simp at hc
    · rw [if_neg hc]
      exact hg

theorem specA_zero (s : Str) : ¬ specA s 0 := by
  rintro ⟨h1, -, -⟩
  omega

theorem specA_cons2_iff (c d : Char) (rest : Str) (m : Nat)
    (hcd : ¬ (isTerm c = true ∧ pySpace d = true)) :
    specA (c :: d :: rest) (m + 1) ↔ specA (d :: rest) m := by
  match m with
  | 0 =>
    unfold specA
    simp only [List.length_cons]
    constructor
    · rintro ⟨-, -, ⟨-, hl⟩ | ⟨h2, -, -⟩⟩
      · omega
      · omega
    · rintro ⟨h1, -, -⟩
      omega
  | 1 =>
    unfold specA
    simp only [List.length_cons]
    constructor
    · rintro ⟨-, h2, ⟨ht, hl⟩ | ⟨-, ht, hs⟩⟩
      · exact ⟨by omega, by omega, Or.inl ⟨ht, by omega⟩⟩
      · exact absurd ⟨ht, hs⟩ hcd
    · rintro ⟨-, h2, ⟨ht, hl⟩ | ⟨h22, -, -⟩⟩
      · exact ⟨by omega, by omega, Or.inl ⟨ht, by omega⟩⟩
      · omega
  | m + 2 =>
    unfold specA
    have e1 : m + 2 + 1 - 1 = m + 2 := by omega
    have e2 : m + 2 + 1 - 2 = m + 1 := by omega
    have e3 : m + 2 - 1 = m + 1 := by omega
    have e4 : m + 2 - 2 = m := by omega
    rw [e1, e2, e3, e4]
    simp only [List.length_cons, List.getD_cons_succ]
    constructor
    · rintro ⟨-, h2, ⟨hA, hl⟩ | ⟨-, hB, hC⟩⟩
      · exact ⟨by omega, by omega, Or.inl ⟨hA, by omega⟩⟩
      · exact ⟨by omega, by omega, Or.inr ⟨by omega, hB, hC⟩⟩
    · rintro ⟨-, h2, ⟨hA, hl⟩ | ⟨-, hB, hC⟩⟩
      · exact ⟨by omega, by omega, Or.inl ⟨hA, by omega⟩⟩
      · exact ⟨by omega, by omega, Or.inr ⟨by omega, hB, hC⟩⟩

theorem alt1Len_some_specA : ∀ (s : Str) (n : Nat), alt1Len s = some n →
    specA s n ∧ ∀ m, m < n → ¬ specA s m
  | [], n, h => by simp [alt1Len] at h
  | [c], n, h => by
    by_cases hc : isTerm c
    · simp [alt1Len, hc] at h
      subst h
      refine ⟨⟨le_refl 1, by simp, Or.inl ⟨hc, by simp⟩⟩, ?_⟩
      intro m hm
      have : m = 0 := by omega
      subst this
      exact specA_zero [c]
    · simp [alt1Len, hc] at h
  | c :: d :: rest, n, h => by
    by_cases hcd : (isTerm c && pySpace d) = true
    · simp [alt1Len, hcd] at h
      subst h
      obtain ⟨hc, hd⟩ : isTerm c = true ∧ pySpace d = true := by simpa using hcd
      refine ⟨⟨by omega, by simp [List.length_cons], Or.inr ⟨le_refl 2, hc, hd⟩⟩, ?_⟩
      intro m hm
      match m with
      | 0 => exact specA_zero _
      | 1 =>
        rintro ⟨-, -, ⟨-, hl⟩ | ⟨h2, -, -⟩⟩
        · simp only [List.length_cons] at hl
          omega
        · omega
    · simp only [alt1Len, hcd, Bool.false_eq_true, if_false, Option.map_eq_some'] at h
      obtain ⟨k, hk, rfl⟩ := h
      have hcd' : ¬ (isTerm c = true ∧ pySpace d = true) := by
        rintro ⟨h1, h2⟩
        exact hcd (by simp [h1, h2])
      obtain ⟨hsp, hmin⟩ := alt1Len_some_specA (d :: rest) k hk
      refine ⟨(specA_cons2_iff c d rest k hcd').mpr hsp, ?_⟩
      intro m hm
      match m with
      | 0 => exact specA_zero _
      | j + 1 =>
        intro hsA
        exact hmin j (by omega) ((specA_cons2_iff c d rest j hcd').mp hsA)

theorem alt1Len_none_specA : ∀ (s : Str), alt1Len s = none → ∀ m, ¬ specA s m
  | [], _, m => by
    rintro ⟨h1, h2, -⟩
    simp at h2
    omega
  | [c], h, m => by
    by_cases hc : isTerm c
    · simp [alt1Len, hc] at h
    · match m with
      | 0 => exact specA_zero _
      | 1 =>
        rintro ⟨-, -, ⟨ht, -⟩ | ⟨h2, -, -⟩⟩
        · exact hc ht
        · omega
      | j + 2 =>
        rintro ⟨-, h2, -⟩
        simp only [List.length_singleton] at h2
        omega
  | c :: d :: rest, h, m => by
    by_cases hcd : (isTerm c && pySpace d) = true
    · simp [alt1Len, hcd] at h
    · simp only [alt1Len, hcd, Bool.false_eq_true, if_false] at h
      have hnone : alt1Len (d :: rest) = none := by
        cases ha : alt1Len (d :: rest) with
        | none => rfl
        | some k =>
          rw [ha] at h
          simp at h
      have hcd' : ¬ (isTerm c = true ∧ pySpace d = true) := by
        rintro ⟨h1, h2⟩
        exact hcd (by simp [h1, h2])
      match m with
      | 0 => exact specA_zero _
      | j + 1 =>
        intro hsA
        exact alt1Len_none_specA (d :: rest) hnone j ((specA_cons2_iff c d rest j hcd').mp hsA)

theorem foldl_full_text (cfg : Config) :
    ∀ (chunks : List Str) (p : EngineState × Str),
    (chunks.foldl (feedChunk cfg) p).2 = p.2 ++ chunks.flatten
  | [], p => by simp
  | c :: cs, p => by
    rw [List.foldl_cons, foldl_full_text cfg cs]
    simp [feedChunk, List.flatten, List.append_assoc]

theorem scan_marker_tuples_append_skip (buffer : Str) :
    ∀ (pre ms : List MarkerSpec),
    (∀ m' ∈ pre, strContains m'.start buffer = false) →
    scan_marker_tuples buffer (pre ++ ms) = scan_marker_tuples buffer ms
  | [], ms, _ => rfl
  | m' :: pre, ms, hpre => by
    rw [List.cons_append, scan_marker_tuples,
      if_neg (by simp [hpre m' (List.mem_cons_self m' pre)])]
    exact scan_marker_tuples_append_skip buffer pre ms
      (fun x hx => hpre x (List.mem_cons_of_mem m' hx))

theorem step_active_le_one (cfg : Config) (s s' : EngineState)
    (h : step cfg s = some s') (hle : s.active.length ≤ 1) :
    s'.active.length ≤ 1 := by
  obtain ⟨buf, act, evs⟩ := s
  dsimp only at hle
  cases act with
  | nil =>
    dsimp only [step] at h
    unfold process_new_markers_or_sentences at h
    cases hscan : scan_marker_tuples buf cfg.markerTuples with
    | some pair =>
      obtain ⟨m, after⟩ := pair
      rw [hscan] at h
      dsimp only at h
      cases h
      simp
    | none =>
      rw [hscan] at h
      cases hsent : sentence_pattern_match buf with
      | some sentence =>
        rw [hsent] at h
        dsimp only at h
        cases h
        simp
      | none =>
        rw [hsent] at h
        simp at h
  | cons m rest =>
    have hrest : rest = [] := by
      simp only [List.length_cons] at hle
      have : rest.length = 0 := by omega
      exact List.eq_nil_of_length_eq_zero this
    subst hrest
    dsimp only [step] at h
    cases hpam : process_active_markers buf [m] with
    | some trip =>
      obtain ⟨i, nb, evs2⟩ := trip
      rw [hpam] at h
      dsimp only at h
      cases h
      cases i with
      | zero => simp
      | succ j => simp [List.eraseIdx]
    | none =>
      rw [hpam] at h
      simp at h

/-- C1: for every finite fragment sequence, with marker tuples drawn from the
spec's data model (non-empty start and end tokens), `process_text_stream`
returns exactly the concatenation of the fragments in arrival order,
regardless of the marker specs, the callbacks supplied, and how the text is
split into fragments; the empty fragment sequence returns the empty string
and invokes no callbacks (empty event trace). -/
theorem C1_full_text_is_concat (stream : List Str) (hasCb : Bool)
    (mts : List MarkerSpec)
    (htok : ∀ m ∈ mts, m.start ≠ [] ∧ m.stop ≠ []) :
    (process_text_stream stream hasCb mts).1 = stream.flatten ∧
    (stream = [] → process_text_stream stream hasCb mts = ([], [])) := by
  constructor
  · show (stream.foldl (feedChunk ⟨hasCb, mts⟩) (⟨[], [], []⟩, [])).2 = stream.flatten
    rw [foldl_full_text]
    simp
  · intro h
    subst h
    rfl

/-- Witness for C1, taken at the empty stream with one concrete marker spec. -/
theorem C1_full_text_is_concat_witness :
    (process_text_stream [] true [⟨"<b>".data, "</b>".data, some 0⟩]).1 = [] ∧
    process_text_stream [] true [⟨"<b>".data, "</b>".data, some 0⟩] = ([], []) :=
  ⟨(C1_full_text_is_concat [] true [⟨"<b>".data, "</b>".data, some 0⟩] (by decide)).1,
   (C1_full_text_is_concat [] true [⟨"<b>".data, "</b>".data, some 0⟩] (by decide)).2 rfl⟩

/-- C2 counterexample: for the single-fragment input "line one\nline two" with
no markers, the recorded sentence-callback trace is not the two calls
"line one" then "line two" asserted by the claim: the newline alternative of
`sentence_pattern` is the bare regex `\n`, which only matches a newline
standing at the start of the buffer, so no boundary is recognized at the
interior newline. -/
theorem C2_newline_two_callbacks_cex :
    (process_text_stream ["line one\nline two".data] true []).2 ≠
      [Event.sentence "line one".data, Event.sentence "line two".data] := by
  decide

/-- C2 amended: for the input "line one\nline two" (one fragment, no markers)
a bare interior newline does not terminate a sentence unit; the sentence
callback is invoked exactly once, at end-of-stream flush, with the whole text
"line one\nline two". -/
theorem C2_newline_single_flush_callback :
    process_text_stream ["line one\nline two".data] true [] =
      ("line one\nline two".data, [Event.sentence "line one\nline two".data]) := by
  decide

/-- C3 counterexample: with buffer "</tag>x." and the single active marker
("<tag>", "</tag>", callback 0), the end token occurs in the buffer and the
enclosed text is empty, yet `process_active_markers` returns `none` (Python
-1): the marker is not removed, the buffer does not advance past the end
token, and the `while` pass breaks (`step` returns `none`) — contradicting
the claimed closure and buffer advance. -/
theorem C3_empty_content_close_cex :
    strContains "</tag>".data "</tag>x.".data = true ∧
    pyStrip (pyPartition "</tag>x.".data "</tag>".data).1 = [] ∧
    process_active_markers "</tag>x.".data [⟨"<tag>".data, "</tag>".data, some 0⟩] = none ∧
    step ⟨true, []⟩
      ⟨"</tag>x.".data, [⟨"<tag>".data, "</tag>".data, some 0⟩], []⟩ = none := by
  decide

/-- C3 amended: when an active marker's end token is found in the buffer but
the enclosed text is empty or whitespace-only, the marker's callback is not
invoked, and the marker does not close and the buffer does not advance
either: the active-marker scan skips that marker and continues with the rest
of the active list exactly as if its end token had not occurred. -/
theorem C3_empty_content_marker_skipped (buffer : Str) (m : MarkerSpec)
    (rest : List MarkerSpec) (i : Nat)
    (hend : strContains m.stop buffer = true)
    (hempty : pyStrip (pyPartition buffer m.stop).1 = []) :
    process_active_markers_go buffer (m :: rest) i =
      process_active_markers_go buffer rest (i + 1) := by
  rw [process_active_markers_go, if_pos hend, if_neg (by simp [hempty])]

/-- Witness for C3's amended statement at a concrete buffer and marker. -/
theorem C3_empty_content_marker_skipped_witness :
    process_active_markers_go "</t>".data [⟨"<t>".data, "</t>".data, some 0⟩] 0 =
      process_active_markers_go "</t>".data [] 1 :=
  C3_empty_content_marker_skipped "</t>".data ⟨"<t>".data, "</t>".data, some 0⟩ [] 0
    (by decide) (by decide)

/-- C4: when the stream ends while a marker is still open — input
"<tag>partial" with marker ("<tag>", "</tag>", callback 0) — that marker's
callback is invoked zero times (no marker event in the trace), and at flush
the general sentence callback receives the trimmed leftover "partial": the
content is rescued as plain text while the tag itself is silently dropped,
and the full text is still returned unmodified. -/
theorem C4_unterminated_marker_flush :
    process_text_stream ["<tag>partial".data] true
      [⟨"<tag>".data, "</tag>".data, some 0⟩] =
      ("<tag>partial".data, [Event.sentence "partial".data]) := by
  decide

/-- C5 counterexample: for buffer "a! b! " with no active marker and no marker
tuples, the prefix of length 6 matches the claim's pattern (alternative (a)),
yet the splitter extracts only the 3-character prefix "a! ": the lazy regex
commits to the shortest match, not the longest, and
`process_new_markers_or_sentences` advances the buffer by only 3 characters. -/
theorem C5_longest_prefix_cex :
    specA "a! b! ".data 6 ∧
    sentence_pattern_match "a! b! ".data = some "a! ".data ∧
    ("a! ".data).length < 6 ∧
    process_new_markers_or_sentences ⟨true, []⟩ ⟨"a! b! ".data, [], []⟩ =
      some ⟨"b! ".data, [], [Event.sentence "a!".data]⟩ := by
  decide

/-- C5 amended: when no marker is active and no registered start token occurs
in the buffer, the sentence splitter extracts the SHORTEST buffer prefix,
anchored at the buffer start, that is a run of characters up to and including
'.', '!' or '?' followed by an included whitespace character or by the end of
the buffer; the newline alternative of the pattern can only fire, when no
such prefix exists, on a newline standing at the very start of the buffer. -/
theorem C5_sentence_splitter_shortest (cfg : Config) (s : EngineState) (n : Nat)
    (hscan : scan_marker_tuples s.buffer cfg.markerTuples = none)
    (hact : s.active = [])
    (hmatch : alt1Len s.buffer = some n) :
    specA s.buffer n ∧ (∀ m, m < n → ¬ specA s.buffer m) ∧
    sentence_pattern_match s.buffer = some (s.buffer.take n) ∧
    ∃ s', step cfg s = some s' ∧ s'.buffer = s.buffer.drop n ∧ s'.active = [] := by
  obtain ⟨hsp, hmin⟩ := alt1Len_some_specA s.buffer n hmatch
  have hb := alt1Len_bounds s.buffer n hmatch
  have hsent : sentence_pattern_match s.buffer = some (s.buffer.take n) := by
    unfold sentence_pattern_match
    rw [hmatch]
  refine ⟨hsp, hmin, hsent, ?_⟩
  obtain ⟨buf, act, evs⟩ := s
  dsimp only at hscan hact hsent hb ⊢
  subst hact
  refine ⟨{ buffer := buf.drop (buf.take n).length,
            active := [],
            events := evs ++
              (if cfg.hasSentenceCb && !(pyStrip (buf.take n)).isEmpty then
                [Event.sentence (pyStrip (buf.take n))]
              else []) }, ?_, ?_, rfl⟩
  · dsimp only [step]
    unfold process_new_markers_or_sentences
    rw [hscan, hsent]
  · dsimp only
    rw [List.length_take]
    congr 1
    omega

/-- Witness for C5's amended statement at buffer "ab. cd", where the shortest
matching prefix is "ab. " of length 4. -/
theorem C5_sentence_splitter_shortest_witness :
    specA "ab. cd".data 4 ∧ ¬ specA "ab. cd".data 3 ∧
    sentence_pattern_match "ab. cd".data = some "ab. ".data :=
  ⟨(C5_sentence_splitter_shortest ⟨true, []⟩ ⟨"ab. cd".data, [], []⟩ 4
      rfl rfl (by decide)).1,
   (C5_sentence_splitter_shortest ⟨true, []⟩ ⟨"ab. cd".data, [], []⟩ 4
      rfl rfl (by decide)).2.1 3 (by omega),
   (C5_sentence_splitter_shortest ⟨true, []⟩ ⟨"ab. cd".data, [], []⟩ 4
      rfl rfl (by decide)).2.2.1⟩

/-- C6: whenever no marker is active, the engine opens exactly the first
MarkerSpec in caller-supplied sequence order whose start token occurs
anywhere in the buffer (not the one occurring earliest in the buffer),
truncates the buffer past the first occurrence of that start token, and
leaves the event trace unchanged: the discarded text reaches no callback. -/
theorem C6_first_marker_in_list_order (cfg : Config) (s : EngineState)
    (pre post : List MarkerSpec) (m : MarkerSpec)
    (hmts : cfg.markerTuples = pre ++ m :: post)
    (hpre : ∀ m' ∈ pre, strContains m'.start s.buffer = false)
    (hm : strContains m.start s.buffer = true)
    (hact : s.active = []) :
    step cfg s = some { s with
      buffer := (pyPartition s.buffer m.start).2.2,
      active := [m] } := by
  obtain ⟨buf, act, evs⟩ := s
  dsimp only at hpre hm hact ⊢
  subst hact
  dsimp only [step]
  unfold process_new_markers_or_sentences
  rw [hmts, scan_marker_tuples_append_skip buf pre (m :: post) hpre,
    scan_marker_tuples, if_pos hm]
  rfl

/-- Witness for C6: the start token of the first listed marker occurs in the
buffer (later than nothing else; the earlier listed marker does not occur), so
the second listed marker is the one opened. -/
theorem C6_first_marker_in_list_order_witness :
    step ⟨true, [⟨"Q".data, "R".data, some 0⟩, ⟨"X".data, "Y".data, some 1⟩]⟩
        ⟨"aXb".data, [], []⟩ =
      some ⟨"b".data, [⟨"X".data, "Y".data, some 1⟩], []⟩ := by
  have h := C6_first_marker_in_list_order
    ⟨true, [⟨"Q".data, "R".data, some 0⟩, ⟨"X".data, "Y".data, some 1⟩]⟩
    ⟨"aXb".data, [], []⟩ [⟨"Q".data, "R".data, some 0⟩] []
    ⟨"X".data, "Y".data, some 1⟩ rfl (by decide) (by decide) rfl
  exact h

/-- C7: for the single-fragment input "<tag>secret</tag>rest of text." with
marker ("<tag>", "</tag>", callback 0), the marker callback fires exactly
once with "secret", the general sentence callback exactly once with
"rest of text.", and no recorded invocation carries the token "<tag>" or
"</tag>". -/
theorem C7_marker_and_sentence_routing :
    process_text_stream ["<tag>secret</tag>rest of text.".data] true
      [⟨"<tag>".data, "</tag>".data, some 0⟩] =
      ("<tag>secret</tag>rest of text.".data,
       [Event.marker 0 "secret".data, Event.sentence "rest of text.".data]) := by
  decide

/-- C8: for every input stream and marker configuration, every recorded
sentence-callback invocation — during streaming and at the end-of-stream
flush alike — received a string that is a fixed point of whitespace trimming
and is non-empty. -/
theorem C8_sentence_callback_trimmed_nonempty (stream : List Str) (hasCb : Bool)
    (mts : List MarkerSpec) (t : Str)
    (hmem : Event.sentence t ∈ (process_text_stream stream hasCb mts).2) :
    pyStrip t = t ∧ t ≠ [] := by
  have hg : goodEvents (process_text_stream stream hasCb mts).2 := by
    show goodEvents
      (flushLoop hasCb (stream.foldl (feedChunk ⟨hasCb, mts⟩) (⟨[], [], []⟩, [])).1).events
    unfold flushLoop
    by_cases hb : (stream.foldl (feedChunk ⟨hasCb, mts⟩) (⟨[], [], []⟩, [])).1.buffer.isEmpty
    · rw [if_pos hb]
      exact foldl_goodEvents ⟨hasCb, mts⟩ stream _ goodEvents_nil
    · rw [if_neg hb]
      exact flushGo_goodEvents hasCb _ _ _ (foldl_goodEvents ⟨hasCb, mts⟩ stream _ goodEvents_nil)
  exact hg t hmem

/-- Witness for C8 on a concrete run whose trace contains the sentence
invocation "hi.". -/
theorem C8_sentence_callback_trimmed_nonempty_witness :
    pyStrip "hi.".data = "hi.".data ∧ "hi.".data ≠ [] :=
  C8_sentence_callback_trimmed_nonempty ["hi. ".data] true [] "hi.".data (by decide)

/-- C9: along every state reachable during one `process_text_stream` call —
initial state, chunk arrivals, `while buffer:` passes and flush actions — the
active-marker list holds at most one element: a marker is only ever opened
when the list is empty. -/
theorem C9_at_most_one_active_marker (cfg : Config) (s : EngineState)
    (h : ReachableState cfg s) : s.active.length ≤ 1 := by
  induction h with
  | init => simp
  | chunk s c hr ih => simpa using ih
  | loopStep s s' hr hbuf hstep ih => exact step_active_le_one cfg s s' hstep ih
  | flushPop s m rest hr hbuf hact ih =>
    rw [hact] at ih
    simp only [List.length_cons] at ih
    dsimp only
    omega
  | flushEmit s hr hbuf hact ih => simpa using ih

/-- Witness for C9 at the state reached after one chunk arrival. -/
theorem C9_at_most_one_active_marker_witness :
    (⟨"x".data, [], []⟩ : EngineState).active.length ≤ 1 :=
  C9_at_most_one_active_marker ⟨true, []⟩ ⟨"x".data, [], []⟩
    (ReachableState.chunk ⟨[], [], []⟩ "x".data ReachableState.init)

/-- C10: assuming every marker start and end token is non-empty, the
`while buffer:` loop of `process_text_stream` terminates: each progressing
pass strictly decreases the measure `mSize`, so the loop reaches its exit
within `2 * buffer.length + 2` passes and any larger fuel computes the same
state as `runBuffer`; the flush loop pops one marker or breaks per pass and
is structurally recursive on the active list. -/
theorem C10_consume_loop_terminates (cfg : Config) (s : EngineState) (fuel : Nat)
    (htok : ∀ m ∈ cfg.markerTuples, m.start ≠ [] ∧ m.stop ≠ [])
    (hatok : ∀ m ∈ s.active, m.stop ≠ [])
    (hfuel : 2 * s.buffer.length + 2 ≤ fuel) :
    consumeLoop cfg fuel s = runBuffer cfg s := by
  have hm : mSize s ≤ 2 * s.buffer.length + 1 := by
    unfold mSize
    split <;> omega
  exact consume_loop_stable cfg fuel (2 * s.buffer.length + 2) s (by omega) (by omega)

/-- Witness for C10 with a concrete configuration, state and fuel. -/
theorem C10_consume_loop_terminates_witness :
    consumeLoop ⟨true, [⟨"<b>".data, "</b>".data, some 0⟩]⟩ 30 ⟨"a. b".data, [], []⟩ =
      runBuffer ⟨true, [⟨"<b>".data, "</b>".data, some 0⟩]⟩ ⟨"a. b".data, [], []⟩ :=
  C10_consume_loop_terminates ⟨true, [⟨"<b>".data, "</b>".data, some 0⟩]⟩
    ⟨"a. b".data, [], []⟩ 30 (by decide) (by decide) (by decide)
